import Mathlib

/-!
Verification of the Element-Anchored Persistent Chat Engine
(`src/components/ElementChatWindow.tsx` and collaborators).

Strings are modelled as `List Char` (`Str`); JavaScript whitespace is
modelled by the four ASCII whitespace characters that occur in chat
traffic (space, tab, carriage return, line feed).  Machine floats used
for pixel geometry are modelled as rationals.
-/

namespace Streaming

/-- Strings of the host program, modelled as lists of characters. -/
abbrev Str := List Char

/-- Whitespace as used by the JavaScript trim and leading-whitespace
regexes, restricted to the ASCII whitespace characters. -/
def isWs (c : Char) : Bool :=
  c == ' ' || c == '\t' || c == '\r' || c == '\n'

/-- Left trim: drop leading whitespace (the regex replace of a leading
whitespace run with the empty string). -/
def trimLeft (s : Str) : Str := s.dropWhile isWs

/-- Right trim: drop trailing whitespace. -/
def trimRight (s : Str) : Str := (s.reverse.dropWhile isWs).reverse

/-- JavaScript `String.prototype.trim`. -/
def trim (s : Str) : Str := trimLeft (trimRight s)

/-- `normalizeNewlines` from ElementChatWindow.tsx: replace every
carriage-return/line-feed pair by a line feed, left to right. -/
def normalizeNewlines : Str → Str
  | [] => []
  | '\r' :: '\n' :: rest => '\n' :: normalizeNewlines rest
  | c :: rest => c :: normalizeNewlines rest

/-- Index of the first occurrence of a double line feed, the
`indexOf` of the double-newline search in `separateAssistantResponse`. -/
def indexOfNN : Str → Option Nat
  | '\n' :: '\n' :: _ => some 0
  | _ :: rest => (indexOfNN rest).map (· + 1)
  | [] => none

/-- Result of partitioning a completed assistant response. -/
structure SeparatedResponse where
  answer : Str
  thinking : Option Str
deriving DecidableEq, Repr

/-- Branch 2 and the final fallback of `separateAssistantResponse`:
when more than one fragment was received, the first fragment (trimmed)
and the concatenation of the remaining fragments (leading whitespace
stripped) become thinking and answer provided both are non-empty after
trimming; otherwise the whole normalized text, leading whitespace
stripped, is the answer. -/
def separateRestCode (deltaHistory : List Str) (normalizedFull : Str) :
    SeparatedResponse :=
  match (if deltaHistory.length > 1 then
           match deltaHistory.map normalizeNewlines with
           | [] => none
           | firstChunk :: restChunks =>
             if trim firstChunk ≠ [] ∧
                 trim (trimLeft (normalizeNewlines restChunks.flatten)) ≠ [] then
               some (⟨trimLeft (normalizeNewlines restChunks.flatten),
                      some (trim firstChunk)⟩ : SeparatedResponse)
             else none
         else none) with
  | some r => r
  | none => ⟨trimLeft normalizedFull, none⟩

/-- `separateAssistantResponse` from ElementChatWindow.tsx, translated
clause by clause: normalize newlines; an all-whitespace input
short-circuits to the empty answer; a double-newline split is attempted
first; the first-fragment split and the whole-text fallback are
`separateRestCode`. -/
def separateAssistantResponse (fullContent : Str) (deltaHistory : List Str) :
    SeparatedResponse :=
  if trim (normalizeNewlines fullContent) = [] then
    ⟨[], none⟩
  else
    match (match indexOfNN (normalizeNewlines fullContent) with
           | none => none
           | some doubleBreakIndex =>
             if trim ((normalizeNewlines fullContent).take doubleBreakIndex) ≠ [] ∧
                 trim (trimLeft ((normalizeNewlines fullContent).drop (doubleBreakIndex + 2))) ≠ [] then
               some (⟨trimLeft ((normalizeNewlines fullContent).drop (doubleBreakIndex + 2)),
                      some (trim ((normalizeNewlines fullContent).take doubleBreakIndex))⟩ :
                      SeparatedResponse)
             else none) with
    | some r => r
    | none => separateRestCode deltaHistory (normalizeNewlines fullContent)

/-- Does the text contain a double line feed? -/
def containsNN (s : Str) : Bool := (indexOfNN s).isSome

/-- The portion of the text before the first double line feed. -/
def beforeNN (s : Str) : Str := s.take ((indexOfNN s).getD s.length)

/-- The portion of the text after the first double line feed. -/
def afterNN (s : Str) : Str := s.drop ((indexOfNN s).getD s.length + 2)

/-- Branches 2 and 3 of the spec's partitioning algorithm, written from
the claim's words: if more than one fragment was received and the first
fragment and the concatenation of the remaining fragments are both
non-empty (after whitespace trimming), the first fragment is the
thinking and the rest the answer; otherwise the entire text is the
answer with no thinking. -/
def separateRestSpec (deltaHistory : List Str) (t : Str) : SeparatedResponse :=
  if deltaHistory.length > 1 then
    if trim (deltaHistory.map normalizeNewlines).headI ≠ [] ∧
        trim (normalizeNewlines (deltaHistory.map normalizeNewlines).tail.flatten) ≠ [] then
      ⟨trimLeft (normalizeNewlines (deltaHistory.map normalizeNewlines).tail.flatten),
        some (trim (deltaHistory.map normalizeNewlines).headI)⟩
    else ⟨trimLeft t, none⟩
  else ⟨trimLeft t, none⟩

/-- The spec's three-branch partitioning algorithm, written from the
claim's words over the newline-normalized accumulated text, with
"non-empty" read as non-empty after whitespace trimming (the form in
which the two portions are produced): (1) if the text contains a
double-newline with non-empty portions on both sides, the former is the
thinking and the latter the answer; (2) otherwise, if more than one
fragment was received and the first fragment and the concatenation of
the rest are both non-empty, they are thinking and answer; (3) otherwise
the entire text is the answer with no thinking. -/
def separateSpec (fullContent : Str) (deltaHistory : List Str) :
    SeparatedResponse :=
  if containsNN (normalizeNewlines fullContent) ∧
      trim (beforeNN (normalizeNewlines fullContent)) ≠ [] ∧
      trim (afterNN (normalizeNewlines fullContent)) ≠ [] then
    ⟨trimLeft (afterNN (normalizeNewlines fullContent)),
      some (trim (beforeNN (normalizeNewlines fullContent)))⟩
  else
    separateRestSpec deltaHistory (normalizeNewlines fullContent)

end Streaming

namespace Streaming

/-- Every character of the string is whitespace. -/
def WsOnly (s : Str) : Prop := ∀ c ∈ s, isWs c = true

lemma wsOnly_of_sublist {s t : Str} (h : s.Sublist t) (ht : WsOnly t) : WsOnly s :=
  fun c hc => ht c (h.mem hc)

lemma trimLeft_eq_nil_iff {s : Str} : trimLeft s = [] ↔ WsOnly s := by
  simp [trimLeft, WsOnly, List.dropWhile_eq_nil_iff]

lemma wsOnly_dropWhile_iff {s : Str} : WsOnly (s.dropWhile isWs) ↔ WsOnly s := by
  constructor
  · intro h c hc
    have hsplit := List.takeWhile_append_dropWhile (p := isWs) (l := s)
    rw [← hsplit] at hc
    rcases List.mem_append.mp hc with hc | hc
    · exact List.mem_takeWhile_imp hc
    · exact h c hc
  · exact wsOnly_of_sublist (List.dropWhile_sublist _)

lemma wsOnly_trimLeft_iff {s : Str} : WsOnly (trimLeft s) ↔ WsOnly s :=
  wsOnly_dropWhile_iff

lemma wsOnly_reverse_iff {s : Str} : WsOnly s.reverse ↔ WsOnly s := by
  simp [WsOnly]

lemma wsOnly_trimRight_iff {s : Str} : WsOnly (trimRight s) ↔ WsOnly s := by
  rw [trimRight, wsOnly_reverse_iff, wsOnly_dropWhile_iff, wsOnly_reverse_iff]

lemma trim_eq_nil_iff {s : Str} : trim s = [] ↔ WsOnly s := by
  rw [trim, trimLeft_eq_nil_iff, wsOnly_trimRight_iff]

lemma trim_trimLeft_ne_nil_iff {s : Str} : trim (trimLeft s) ≠ [] ↔ trim s ≠ [] := by
  rw [ne_eq, ne_eq, trim_eq_nil_iff, trim_eq_nil_iff, wsOnly_trimLeft_iff]

lemma wsOnly_normalize_iff (s : Str) : WsOnly (normalizeNewlines s) ↔ WsOnly s := by
  induction s using normalizeNewlines.induct with
  | case1 => simp [normalizeNewlines]
  | case2 rest ih =>
    simp only [normalizeNewlines, WsOnly, List.mem_cons] at ih ⊢
    constructor
    · intro h
      rintro c (rfl | rfl | hc)
      · decide
      · decide
      · exact ih.mp (fun d hd => h d (Or.inr hd)) c hc
    · intro h
      rintro c (rfl | hc)
      · decide
      · exact ih.mpr (fun d hd => h d (Or.inr (Or.inr hd))) c hc
  | case3 c rest h1 ih =>
    simp only [normalizeNewlines, WsOnly, List.mem_cons] at ih ⊢
    constructor
    · intro h
      rintro d (rfl | hd)
      · exact h d (Or.inl rfl)
      · exact ih.mp (fun e he => h e (Or.inr he)) d hd
    · intro h
      rintro d (rfl | hd)
      · exact h d (Or.inl rfl)
      · exact ih.mpr (fun e he => h e (Or.inr he)) d hd

end Streaming

namespace Streaming

lemma wsOnly_flatten_iff {l : List Str} : WsOnly l.flatten ↔ ∀ s ∈ l, WsOnly s := by
  simp only [WsOnly, List.mem_flatten]
  constructor
  · intro h s hs c hc
    exact h c ⟨s, hs, hc⟩
  · rintro h c ⟨s, hs, hc⟩
    exact h s hs c hc

lemma trim_trimLeft_eq_nil_iff {s : Str} : trim (trimLeft s) = [] ↔ trim s = [] := by
  rw [trim_eq_nil_iff, trim_eq_nil_iff, wsOnly_trimLeft_iff]

lemma separateRest_eq (hist : List Str) (t : Str) :
    separateRestCode hist t = separateRestSpec hist t := by
  rcases hist with _ | ⟨h1, rest⟩
  · rfl
  rcases rest with _ | ⟨h2, rest2⟩
  · rfl
  · unfold separateRestCode separateRestSpec
    simp only [List.map_cons, List.headI_cons, List.tail_cons, List.length_cons, ne_eq,
      trim_trimLeft_eq_nil_iff]
    have hlen : rest2.length + 1 + 1 > 1 := by omega
    simp only [if_pos hlen]
    by_cases hc : ¬trim (normalizeNewlines h1) = [] ∧
        ¬trim (normalizeNewlines
          ((normalizeNewlines h2 :: List.map normalizeNewlines rest2).flatten)) = []
    · simp only [if_pos hc]
    · simp only [if_neg hc]

lemma separate_code_eq_spec (hist : List Str) :
    separateAssistantResponse hist.flatten hist = separateSpec hist.flatten hist := by
  by_cases hempty : trim (normalizeNewlines hist.flatten) = []
  · have hws : WsOnly (normalizeNewlines hist.flatten) := trim_eq_nil_iff.mp hempty
    have hb : trim (beforeNN (normalizeNewlines hist.flatten)) = [] :=
      trim_eq_nil_iff.mpr (wsOnly_of_sublist (List.take_sublist _ _) hws)
    have htl : trimLeft (normalizeNewlines hist.flatten) = [] := trimLeft_eq_nil_iff.mpr hws
    have hall : ∀ s ∈ hist, WsOnly s :=
      wsOnly_flatten_iff.mp ((wsOnly_normalize_iff _).mp hws)
    rw [separateAssistantResponse, separateSpec, if_pos hempty,
      if_neg (by rintro ⟨-, hb2, -⟩; exact hb2 hb)]
    rcases hist with _ | ⟨h1, rest⟩
    · rfl
    rcases rest with _ | ⟨h2, rest2⟩
    · have h1tl : trimLeft (normalizeNewlines h1) = [] :=
        trimLeft_eq_nil_iff.mpr ((wsOnly_normalize_iff _).mpr (hall h1 (by simp)))
      simp [separateRestSpec, h1tl]
    · have hh1 : trim (normalizeNewlines h1) = [] :=
        trim_eq_nil_iff.mpr ((wsOnly_normalize_iff _).mpr (hall h1 (by simp)))
      simp only [List.flatten_cons] at htl
      simp [separateRestSpec, hh1, htl]
  · rw [separateAssistantResponse, separateSpec, if_neg hempty]
    rcases hidx : indexOfNN (normalizeNewlines hist.flatten) with _ | i
    · simp only [hidx]
      rw [if_neg (by simp [containsNN, hidx])]
      exact separateRest_eq _ _
    · simp only [hidx]
      have hbefore : beforeNN (normalizeNewlines hist.flatten) =
          (normalizeNewlines hist.flatten).take i := by
        simp [beforeNN, hidx]
      have hafter : afterNN (normalizeNewlines hist.flatten) =
          (normalizeNewlines hist.flatten).drop (i + 2) := by
        simp [afterNN, hidx]
      by_cases hc : trim ((normalizeNewlines hist.flatten).take i) ≠ [] ∧
          trim ((normalizeNewlines hist.flatten).drop (i + 2)) ≠ []
      · rw [if_pos (by
            refine ⟨hc.1, ?_⟩
            rw [trim_trimLeft_ne_nil_iff]
            exact hc.2)]
        rw [if_pos (by
            refine ⟨by simp [containsNN, hidx], ?_, ?_⟩
            · rw [hbefore]; exact hc.1
            · rw [hafter]; exact hc.2)]
        simp [hbefore, hafter]
      · rw [if_neg (by
            rintro ⟨h1, h2⟩
            rw [trim_trimLeft_ne_nil_iff] at h2
            exact hc ⟨h1, h2⟩)]
        rw [if_neg (by
            rintro ⟨-, h1, h2⟩
            rw [hbefore] at h1
            rw [hafter] at h2
            exact hc ⟨h1, h2⟩)]
        exact separateRest_eq _ _

/-- C1: the streaming aggregator's partition of a completed assistant
response follows the spec's three-branch algorithm.  For every fragment
history (whose concatenation is the accumulated text),
`separateAssistantResponse` agrees with the claim's three-branch
algorithm `separateSpec`; in particular the fragments
`["Reasoning: consider X.", "\n\nFinal: the answer is Y."]` yield
thinking `"Reasoning: consider X."` and answer
`"Final: the answer is Y."`, and the single fragment
`"Just the answer."` yields the whole text as answer with no thinking. -/
theorem claim1_streaming_partition :
    (∀ deltaHistory : List Str,
        separateAssistantResponse deltaHistory.flatten deltaHistory =
          separateSpec deltaHistory.flatten deltaHistory) ∧
    separateAssistantResponse
        ("Reasoning: consider X.\n\nFinal: the answer is Y.".data)
        ["Reasoning: consider X.".data, "\n\nFinal: the answer is Y.".data] =
      ⟨"Final: the answer is Y.".data, some ("Reasoning: consider X.".data)⟩ ∧
    separateAssistantResponse ("Just the answer.".data) ["Just the answer.".data] =
      ⟨"Just the answer.".data, none⟩ :=
  ⟨separate_code_eq_spec, by decide, by decide⟩

end Streaming

namespace Messages

open Streaming (Str trim trimLeft separateAssistantResponse)

/-- Message role. -/
inductive Role
  | user
  | assistant
deriving DecidableEq, Repr

/-- A chat message (`ChatMessage` from types/elementChat.ts); image
attachments are not modelled, they play no part in the claims. -/
structure Msg where
  id : String
  role : Role
  content : Str
  thinking : Option Str
  turnId : Option String
  timestamp : Nat
deriving DecidableEq, Repr

/-- Worker of `dedupeMessagesById`: keep the first occurrence of every id. -/
def dedupeGo (seen : List String) : List Msg → List Msg
  | [] => []
  | m :: rest =>
    if m.id ∈ seen then dedupeGo seen rest
    else m :: dedupeGo (m.id :: seen) rest

/-- `dedupeMessagesById` from ElementChatWindow.tsx. -/
def dedupeMessagesById (messages : List Msg) : List Msg := dedupeGo [] messages

/-- Worker of `removeLastAssistant`: on the reversed list, drop the first
assistant entry (the `for` loop from the end with `splice` and `break`). -/
def removeLastAssistantGo : List Msg → List Msg
  | [] => []
  | m :: rest => if m.role = .assistant then rest else m :: removeLastAssistantGo rest

/-- The `clearPreviousAssistant` removal in `sendMessageToAPI`: scan from
the end and remove the first assistant message found. -/
def removeLastAssistant (messages : List Msg) : List Msg :=
  (removeLastAssistantGo messages.reverse).reverse

/-- Appending the user message of a new turn (`sendMessageToAPI`, user
message entry followed by `dedupeMessagesById`); the user message id and
turn id are the same generated string. -/
def appendUserMessage (messages : List Msg) (turnId : String) (content : Str)
    (ts : Nat) : List Msg :=
  dedupeMessagesById (messages ++ [⟨turnId, .user, content, none, some turnId, ts⟩])

/-- Content of the synthetic error message of the catch block. -/
def errorContent : Str :=
  ("❌ Error: Could not connect to API. " ++
    "Please check your backend is running or API key is configured.").data

/-- The catch block of `sendMessageToAPI`: append a single synthetic
assistant-role error message, deduplicated by id. -/
def appendErrorMessage (messages : List Msg) (errId : String) (ts : Nat) : List Msg :=
  dedupeMessagesById (messages ++ [⟨errId, .assistant, errorContent, none, none, ts⟩])

/-- The `assistantTurnMapRef` lookup, modelled by the invariant the
syncing effect maintains: the map sends a turn id to the id of the last
assistant message bearing that turn id. -/
def lookupAssistantByTurn (messages : List Msg) (t : String) : Option String :=
  ((messages.filter (fun (m : Msg) => m.role == .assistant && m.turnId == some t)).getLast?).map (·.id)

/-- Inputs of one completed turn: the turn id, the accumulated assistant
content, the fragment history snapshot, the freshly generated assistant
message id and the completion timestamp. -/
structure TurnInput where
  turnId : String
  content : Str
  deltaHistory : List Str
  freshId : String
  timestamp : Nat
deriving Repr

/-- The storage phase of `sendMessageToAPI` after streaming completes
(from the partition of the final answer to the final `setMessages`),
parameterised by the base list (after the optional removal of the
previous assistant reply) and the rendered list `newMessages`: an
empty final answer drops the turn; a message with the same turn id is
updated in place; a trailing assistant message with identical content is
merged; otherwise a new assistant message is appended. -/
def contentForStorageOf (inp : TurnInput) : Str :=
  if trim (separateAssistantResponse inp.content inp.deltaHistory).answer ≠ [] then
    (separateAssistantResponse inp.content inp.deltaHistory).answer
  else trimLeft inp.content

/-- `assistantThinkingForStorage`: the trimmed thinking block, kept only
when the partitioned answer is non-empty and a thinking block exists. -/
def thinkingForStorageOf (inp : TurnInput) : Option Str :=
  if trim (separateAssistantResponse inp.content inp.deltaHistory).answer ≠ [] then
    match (separateAssistantResponse inp.content inp.deltaHistory).thinking with
    | some th => if th ≠ [] then some (trim th) else none
    | none => none
  else none

/-- In-place update of an assistant message with the new turn's content,
thinking, timestamp and turn id. -/
def updateWith (inp : TurnInput) (m : Msg) : Msg :=
  { m with content := contentForStorageOf inp, thinking := thinkingForStorageOf inp,
           timestamp := inp.timestamp, turnId := some inp.turnId }

/-- The freshly appended assistant message of a turn. -/
def newAssistantOf (inp : TurnInput) : Msg :=
  ⟨inp.freshId, Role.assistant, contentForStorageOf inp, thinkingForStorageOf inp,
    some inp.turnId, inp.timestamp⟩

/-- The duplicate-completion guard: the last message is an assistant
message with non-empty content identical (after trimming) to the new
content. -/
abbrev MergeCond (inp : TurnInput) (last : Msg) : Prop :=
  last.role = Role.assistant ∧ trim last.content ≠ [] ∧
    (trim last.content = trim (contentForStorageOf inp) ∨
      trim last.content = trim inp.content)

/-- The storage phase of `sendMessageToAPI` after streaming completes
(from the partition of the final answer to the final `setMessages`),
parameterised by the base list (after the optional removal of the
previous assistant reply) and the rendered list `newMessages`: an
empty final answer drops the turn; a message with the same turn id is
updated in place; a trailing assistant message with identical content is
merged; otherwise a new assistant message is appended. -/
def storeAnswer (baseMessages newMessages : List Msg) (inp : TurnInput) : List Msg :=
  if trim (contentForStorageOf inp) = [] then newMessages
  else
    match (match lookupAssistantByTurn newMessages inp.turnId with
           | some eid => baseMessages.findIdx? (fun (m : Msg) => m.id == eid)
           | none => none),
          lookupAssistantByTurn newMessages inp.turnId with
    | some _, some eid =>
        dedupeMessagesById (baseMessages.map (fun (m : Msg) =>
          if m.id = eid then updateWith inp m else m))
    | _, _ =>
        match baseMessages.getLast? with
        | some last =>
          if MergeCond inp last then
            dedupeMessagesById (baseMessages.dropLast ++ [updateWith inp last])
          else
            dedupeMessagesById (baseMessages ++ [newAssistantOf inp])
        | none =>
            dedupeMessagesById (baseMessages ++ [newAssistantOf inp])

/-- Completion of one turn: the optional `clearPreviousAssistant`
removal followed by the storage phase. -/
def completeTurn (clearPrev : Bool) (newMessages : List Msg) (inp : TurnInput) :
    List Msg :=
  storeAnswer (if clearPrev then removeLastAssistant newMessages else newMessages)
    newMessages inp

/-- No two messages share an id. -/
def IdsNodup (messages : List Msg) : Prop := (messages.map (·.id)).Nodup

/-- An assistant message carrying a turn id. -/
def isTurnAssistant (m : Msg) : Bool := m.role == .assistant && m.turnId.isSome

/-- At most one assistant message exists per turn id: any two assistant
entries carrying turn ids carry different ones. -/
def AtMostOnePerTurn (messages : List Msg) : Prop :=
  (messages.filter isTurnAssistant).Pairwise fun a b => a.turnId ≠ b.turnId

/-- The message-list invariant of the spec. -/
def WellFormedMessages (messages : List Msg) : Prop :=
  IdsNodup messages ∧ AtMostOnePerTurn messages

end Messages

namespace Messages

lemma dedupeGo_sublist (seen : List String) (l : List Msg) :
    (dedupeGo seen l).Sublist l := by
  induction l generalizing seen with
  | nil => simp [dedupeGo]
  | cons m rest ih =>
    unfold dedupeGo
    by_cases h : m.id ∈ seen
    · simp only [if_pos h]
      exact (ih seen).trans (List.sublist_cons_self m rest)
    · simp only [if_neg h]
      exact (ih (m.id :: seen)).cons₂ m

lemma dedupe_sublist (l : List Msg) : (dedupeMessagesById l).Sublist l :=
  dedupeGo_sublist [] l

lemma dedupeGo_spec (l : List Msg) : ∀ seen : List String,
    (∀ i ∈ seen, i ∉ (dedupeGo seen l).map (·.id)) ∧
      ((dedupeGo seen l).map (·.id)).Nodup := by
  induction l with
  | nil => intro seen; simp [dedupeGo]
  | cons m rest ih =>
    intro seen
    unfold dedupeGo
    by_cases h : m.id ∈ seen
    · simp only [if_pos h]
      exact ih seen
    · simp only [if_neg h, List.map_cons, List.nodup_cons]
      have ih1 := (ih (m.id :: seen)).1
      have ih2 := (ih (m.id :: seen)).2
      refine ⟨?_, ?_, ih2⟩
      · intro i hi hmem
        rcases List.mem_cons.mp hmem with rfl | hmem
        · exact h hi
        · exact ih1 i (List.mem_cons_of_mem _ hi) hmem
      · exact ih1 m.id (List.mem_cons_self _ _)

lemma idsNodup_dedupe (l : List Msg) : IdsNodup (dedupeMessagesById l) :=
  (dedupeGo_spec l []).2

lemma dedupeGo_eq_self (l : List Msg) : ∀ seen : List String,
    (l.map (·.id)).Nodup → (∀ m ∈ l, m.id ∉ seen) → dedupeGo seen l = l := by
  induction l with
  | nil => intro seen _ _; rfl
  | cons m rest ih =>
    intro seen hnd hfresh
    unfold dedupeGo
    rw [if_neg (hfresh m (List.mem_cons_self _ _))]
    have hnd' : (∀ x ∈ rest, ¬x.id = m.id) ∧ ((rest.map (·.id)).Nodup) := by
      simpa using hnd
    congr 1
    apply ih
    · exact hnd'.2
    · intro m' hm' hmem
      rcases List.mem_cons.mp hmem with he | hseen
      · exact hnd'.1 m' hm' he
      · exact hfresh m' (List.mem_cons_of_mem _ hm') hseen

lemma dedupe_eq_self {l : List Msg} (h : IdsNodup l) : dedupeMessagesById l = l :=
  dedupeGo_eq_self l [] h (by simp)

lemma dedupeGo_append (extra : List Msg) (l : List Msg) : ∀ seen : List String,
    (l.map (·.id)).Nodup → (∀ m ∈ l, m.id ∉ seen) →
    ∃ l2, dedupeGo seen (l ++ extra) = l ++ l2 := by
  induction l with
  | nil => intro seen _ _; exact ⟨dedupeGo seen extra, rfl⟩
  | cons m rest ih =>
    intro seen hnd hfresh
    rw [List.cons_append]
    unfold dedupeGo
    rw [if_neg (hfresh m (List.mem_cons_self _ _))]
    have hnd' : (∀ x ∈ rest, ¬x.id = m.id) ∧ ((rest.map (·.id)).Nodup) := by
      simpa using hnd
    obtain ⟨l2, hl2⟩ := ih (m.id :: seen) hnd'.2 (by
      intro m' hm' hmem
      rcases List.mem_cons.mp hmem with he | hseen
      · exact hnd'.1 m' hm' he
      · exact hfresh m' (List.mem_cons_of_mem _ hm') hseen)
    exact ⟨l2, by rw [hl2, List.cons_append]⟩

lemma dedupe_append {l : List Msg} (extra : List Msg) (h : IdsNodup l) :
    ∃ l2, dedupeMessagesById (l ++ extra) = l ++ l2 :=
  dedupeGo_append extra l [] h (by simp)

lemma atMostOne_of_sublist {l1 l2 : List Msg} (h : l1.Sublist l2)
    (hp : AtMostOnePerTurn l2) : AtMostOnePerTurn l1 :=
  hp.sublist (h.filter _)

lemma removeLastAssistantGo_sublist (l : List Msg) :
    (removeLastAssistantGo l).Sublist l := by
  induction l with
  | nil => simp [removeLastAssistantGo]
  | cons m rest ih =>
    unfold removeLastAssistantGo
    by_cases h : m.role = Role.assistant
    · simp only [if_pos h]
      exact List.sublist_cons_self m rest
    · simp only [if_neg h]
      exact ih.cons₂ m

lemma removeLastAssistant_sublist (l : List Msg) :
    (removeLastAssistant l).Sublist l := by
  have h := (removeLastAssistantGo_sublist l.reverse).reverse
  simpa [removeLastAssistant] using h

lemma atMostOne_append_nonTurn {l : List Msg} {x : Msg}
    (hx : isTurnAssistant x = false) (h : AtMostOnePerTurn l) :
    AtMostOnePerTurn (l ++ [x]) := by
  unfold AtMostOnePerTurn at h ⊢
  rw [List.filter_append]
  simp only [List.filter_cons, hx, Bool.false_eq_true, if_false, List.filter_nil,
    List.append_nil]
  exact h

lemma filter_map_eq {l : List Msg} {f : Msg → Msg}
    (hf : ∀ m ∈ l, isTurnAssistant (f m) = isTurnAssistant m) :
    (l.map f).filter isTurnAssistant = (l.filter isTurnAssistant).map f := by
  induction l with
  | nil => rfl
  | cons m rest ih =>
    have ih' := ih fun m' hm' => hf m' (List.mem_cons_of_mem _ hm')
    by_cases h : isTurnAssistant m = true
    · simp [List.map_cons, List.filter_cons, hf m (List.mem_cons_self _ _), h, ih']
    · simp [List.map_cons, List.filter_cons, hf m (List.mem_cons_self _ _), h, ih']

lemma atMostOne_map {l : List Msg} {f : Msg → Msg}
    (hf : ∀ m ∈ l, isTurnAssistant (f m) = isTurnAssistant m ∧ (f m).turnId = m.turnId)
    (h : AtMostOnePerTurn l) : AtMostOnePerTurn (l.map f) := by
  unfold AtMostOnePerTurn at h ⊢
  rw [filter_map_eq fun m hm => (hf m hm).1, List.pairwise_map]
  refine h.imp_of_mem ?_
  intro a b ha hb hab
  have ha' := (hf a ((List.filter_sublist _).subset ha)).2
  have hb' := (hf b ((List.filter_sublist _).subset hb)).2
  rw [ha', hb']
  exact hab

lemma mem_of_getLast?' {α : Type} {l : List α} {a : α} (h : l.getLast? = some a) :
    a ∈ l := by
  induction l with
  | nil => simp at h
  | cons x rest ih =>
    rcases rest with _ | ⟨y, rest2⟩
    · simp at h
      simp [h]
    · rw [List.getLast?_cons_cons] at h
      exact List.mem_cons_of_mem _ (ih h)

lemma eq_of_id_eq {l : List Msg} (h : IdsNodup l) {a b : Msg} (ha : a ∈ l)
    (hb : b ∈ l) (hid : a.id = b.id) : a = b :=
  List.inj_on_of_nodup_map h ha hb hid

lemma lookup_some_mem {l : List Msg} {t eid : String}
    (h : lookupAssistantByTurn l t = some eid) :
    ∃ e ∈ l, e.id = eid ∧ e.role = Role.assistant ∧ e.turnId = some t := by
  unfold lookupAssistantByTurn at h
  obtain ⟨e, he, heid⟩ := Option.map_eq_some'.mp h
  have hmem := mem_of_getLast?' he
  rw [List.mem_filter] at hmem
  refine ⟨e, hmem.1, heid, ?_, ?_⟩
  · have := hmem.2
    simp only [Bool.and_eq_true, beq_iff_eq] at this
    exact this.1
  · have := hmem.2
    simp only [Bool.and_eq_true, beq_iff_eq] at this
    exact this.2

lemma lookup_some_of_mem {l : List Msg} {t : String} {m : Msg} (hm : m ∈ l)
    (hrole : m.role = Role.assistant) (hturn : m.turnId = some t) :
    ∃ eid, lookupAssistantByTurn l t = some eid := by
  unfold lookupAssistantByTurn
  have hmem : m ∈ l.filter (fun (m : Msg) => m.role == Role.assistant && m.turnId == some t) := by
    rw [List.mem_filter]
    exact ⟨hm, by simp [hrole, hturn]⟩
  have hne : l.filter (fun (m : Msg) => m.role == Role.assistant && m.turnId == some t) ≠ [] :=
    List.ne_nil_of_mem hmem
  rcases hgl : (l.filter (fun (m : Msg) => m.role == Role.assistant && m.turnId == some t)).getLast? with _ | e
  · rw [List.getLast?_eq_none_iff] at hgl
    exact absurd hgl hne
  · exact ⟨e.id, rfl⟩

lemma not_found_no_turn {newMessages base : List Msg} {t : String}
    (hp : AtMostOnePerTurn newMessages) (hsub : base.Sublist newMessages)
    (hnf : (match lookupAssistantByTurn newMessages t with
            | some eid => base.findIdx? (fun (m : Msg) => m.id == eid)
            | none => (none : Option Nat)) = none) :
    ∀ m ∈ base, ¬(m.role = Role.assistant ∧ m.turnId = some t) := by
  rintro m hm ⟨hrole, hturn⟩
  have hmemNew : m ∈ newMessages := hsub.subset hm
  obtain ⟨eid, hlook⟩ := lookup_some_of_mem hmemNew hrole hturn
  rw [hlook] at hnf
  obtain ⟨e, heNew, heid, herole, heturn⟩ := lookup_some_mem hlook
  have hmf : m ∈ newMessages.filter isTurnAssistant := by
    rw [List.mem_filter]
    exact ⟨hmemNew, by simp [isTurnAssistant, hrole, hturn]⟩
  have hef : e ∈ newMessages.filter isTurnAssistant := by
    rw [List.mem_filter]
    exact ⟨heNew, by simp [isTurnAssistant, herole, heturn]⟩
  have hme : m = e := by
    by_contra hne
    have hsym : Symmetric (fun a b : Msg => a.turnId ≠ b.turnId) :=
      fun a b h => Ne.symm h
    have := hp.forall hsym hmf hef hne
    rw [hturn, heturn] at this
    exact this rfl
  have := List.findIdx?_eq_none_iff.mp hnf m hm
  rw [hme, heid] at this
  simp at this

end Messages

namespace Messages

open Streaming (Str trim trimLeft separateAssistantResponse)

lemma atMostOne_append_one {l : List Msg} {x : Msg}
    (hl : AtMostOnePerTurn l)
    (hnew : ∀ a ∈ l, isTurnAssistant a = true → a.turnId ≠ x.turnId) :
    AtMostOnePerTurn (l ++ [x]) := by
  unfold AtMostOnePerTurn at hl ⊢
  rw [List.filter_append, List.pairwise_append]
  refine ⟨hl, ?_, ?_⟩
  · cases hfx : isTurnAssistant x <;> simp [List.filter_cons, hfx]
  · intro a ha b hb
    have ha' := List.mem_filter.mp ha
    cases hfx : isTurnAssistant x with
    | false =>
      rw [List.filter_cons] at hb
      simp [hfx] at hb
    | true =>
      rw [List.filter_cons] at hb
      simp only [hfx, if_true, List.filter_nil] at hb
      have hbx : b = x := by simpa using hb
      subst hbx
      exact hnew a ha'.1 ha'.2

lemma tail_wf {base : List Msg} (inp : TurnInput) (hbn : IdsNodup base)
    (hbp : AtMostOnePerTurn base)
    (hnoturn : ∀ m ∈ base, ¬(m.role = Role.assistant ∧ m.turnId = some inp.turnId)) :
    WellFormedMessages (match base.getLast? with
      | some last =>
        if MergeCond inp last then
          dedupeMessagesById (base.dropLast ++ [updateWith inp last])
        else dedupeMessagesById (base ++ [newAssistantOf inp])
      | none => dedupeMessagesById (base ++ [newAssistantOf inp])) := by
  have hno' : ∀ a ∈ base, isTurnAssistant a = true → a.turnId ≠ some inp.turnId := by
    intro a ha hta hturn
    have : a.role = Role.assistant := by
      simp only [isTurnAssistant, Bool.and_eq_true, beq_iff_eq] at hta
      exact hta.1
    exact hnoturn a ha ⟨this, hturn⟩
  have happend : WellFormedMessages (dedupeMessagesById (base ++ [newAssistantOf inp])) := by
    refine ⟨idsNodup_dedupe _, atMostOne_of_sublist (dedupe_sublist _) ?_⟩
    exact atMostOne_append_one hbp (by
      intro a ha hta
      have := hno' a ha hta
      simpa [newAssistantOf] using this)
  split
  next last heq =>
    by_cases hmc : MergeCond inp last
    · rw [if_pos hmc]
      obtain ⟨l', hbase⟩ := List.getLast?_eq_some_iff.mp heq
      subst hbase
      rw [List.dropLast_concat]
      refine ⟨idsNodup_dedupe _, atMostOne_of_sublist (dedupe_sublist _) ?_⟩
      refine atMostOne_append_one
        (atMostOne_of_sublist (by simp) hbp) ?_
      intro a ha hta
      have := hno' a (by simp [ha]) hta
      simpa [updateWith] using this
    · rw [if_neg hmc]
      exact happend
  next heq => exact happend

lemma storeAnswer_wf {base newMessages : List Msg} (inp : TurnInput)
    (hwf : WellFormedMessages newMessages) (hsub : base.Sublist newMessages) :
    WellFormedMessages (storeAnswer base newMessages inp) := by
  obtain ⟨hnodup, hp⟩ := hwf
  have hbp : AtMostOnePerTurn base := atMostOne_of_sublist hsub hp
  have hbn : IdsNodup base := hnodup.sublist (hsub.map _)
  unfold storeAnswer
  by_cases hdrop : trim (contentForStorageOf inp) = []
  · rw [if_pos hdrop]
    exact ⟨hnodup, hp⟩
  rw [if_neg hdrop]
  rcases hlook : lookupAssistantByTurn newMessages inp.turnId with _ | eid
  · simp only [hlook]
    exact tail_wf inp hbn hbp (not_found_no_turn hp hsub (by simp [hlook]))
  · rcases hidx : base.findIdx? (fun (m : Msg) => m.id == eid) with _ | i
    · simp only [hlook, hidx]
      exact tail_wf inp hbn hbp (not_found_no_turn hp hsub (by simp only [hlook]; simpa using hidx))
    · simp only [hlook, hidx]
      refine ⟨idsNodup_dedupe _, atMostOne_of_sublist (dedupe_sublist _) ?_⟩
      apply atMostOne_map ?_ hbp
      intro m hm
      by_cases hid : m.id = eid
      · obtain ⟨e, heNew, heid, herole, heturn⟩ := lookup_some_mem hlook
        have hme : m = e := eq_of_id_eq hnodup (hsub.subset hm) heNew (by rw [hid, heid])
        subst hme
        constructor
        · simp [updateWith, isTurnAssistant, hid, herole, heturn]
        · simp [updateWith, isTurnAssistant, hid, heturn]
      · simp [hid]

end Messages

namespace Streaming

lemma trim_trimLeft_of_rest (hist : List Str) (t : Str)
    (hnil : trim (separateRestCode hist t).answer = []) : trim (trimLeft t) = [] := by
  unfold separateRestCode at hnil
  rcases hist with _ | ⟨h1, rest⟩
  · simpa using hnil
  rcases rest with _ | ⟨h2, rest2⟩
  · simpa using hnil
  · have hlen : (h1 :: h2 :: rest2).length > 1 := by
      simp
    rw [if_pos hlen] at hnil
    simp only [List.map_cons] at hnil
    by_cases hcond : trim (normalizeNewlines h1) ≠ [] ∧
        trim (trimLeft (normalizeNewlines
          ((normalizeNewlines h2 :: List.map normalizeNewlines rest2).flatten))) ≠ []
    · rw [if_pos hcond] at hnil
      exact absurd (by simpa using hnil) hcond.2
    · rw [if_neg hcond] at hnil
      simpa using hnil

lemma trim_eq_nil_of_answer (full : Str) (hist : List Str)
    (hnil : trim (separateAssistantResponse full hist).answer = []) : trim full = [] := by
  by_cases hempty : trim (normalizeNewlines full) = []
  · exact trim_eq_nil_iff.mpr ((wsOnly_normalize_iff full).mp (trim_eq_nil_iff.mp hempty))
  exfalso
  rw [separateAssistantResponse, if_neg hempty] at hnil
  rcases hidx : indexOfNN (normalizeNewlines full) with _ | i
  · simp only [hidx] at hnil
    have := trim_trimLeft_of_rest hist (normalizeNewlines full) hnil
    rw [trim_trimLeft_eq_nil_iff] at this
    exact hempty this
  · simp only [hidx] at hnil
    by_cases hcond : trim ((normalizeNewlines full).take i) ≠ [] ∧
        trim (trimLeft ((normalizeNewlines full).drop (i + 2))) ≠ []
    · rw [if_pos hcond] at hnil
      exact hcond.2 (by simpa using hnil)
    · rw [if_neg hcond] at hnil
      have := trim_trimLeft_of_rest hist (normalizeNewlines full) hnil
      rw [trim_trimLeft_eq_nil_iff] at this
      exact hempty this

end Streaming

namespace Messages

open Streaming (trim trimLeft separateAssistantResponse)

lemma removeLastAssistantGo_id {l : List Msg}
    (h : ∀ m ∈ l, m.role ≠ Role.assistant) : removeLastAssistantGo l = l := by
  induction l with
  | nil => rfl
  | cons m rest ih =>
    unfold removeLastAssistantGo
    rw [if_neg (h m (List.mem_cons_self _ _))]
    rw [ih fun m' hm' => h m' (List.mem_cons_of_mem _ hm')]

lemma removeLastAssistantGo_append {l1 l2 : List Msg} {a : Msg}
    (h1 : ∀ m ∈ l1, m.role ≠ Role.assistant) (ha : a.role = Role.assistant) :
    removeLastAssistantGo (l1 ++ a :: l2) = l1 ++ l2 := by
  induction l1 with
  | nil =>
    rw [List.nil_append]
    unfold removeLastAssistantGo
    rw [if_pos ha, List.nil_append]
  | cons m rest ih =>
    rw [List.cons_append]
    unfold removeLastAssistantGo
    rw [if_neg (h1 m (List.mem_cons_self _ _))]
    rw [ih fun m' hm' => h1 m' (List.mem_cons_of_mem _ hm'), List.cons_append]

lemma tail_preserves_ids {msgs : List Msg} (inp : TurnInput) (h : IdsNodup msgs)
    {m : Msg} (hm : m ∈ msgs) :
    m.id ∈ List.map (fun (x : Msg) => x.id) (match msgs.getLast? with
      | some last =>
        if MergeCond inp last then
          dedupeMessagesById (msgs.dropLast ++ [updateWith inp last])
        else dedupeMessagesById (msgs ++ [newAssistantOf inp])
      | none => dedupeMessagesById (msgs ++ [newAssistantOf inp])) := by
  have happend : m.id ∈ (dedupeMessagesById (msgs ++ [newAssistantOf inp])).map (·.id) := by
    obtain ⟨l2, hl2⟩ := dedupe_append [newAssistantOf inp] h
    rw [hl2, List.map_append]
    exact List.mem_append_left _ (List.mem_map_of_mem _ hm)
  split
  next last heq =>
    by_cases hmc : MergeCond inp last
    · rw [if_pos hmc]
      obtain ⟨l', hbase⟩ := List.getLast?_eq_some_iff.mp heq
      subst hbase
      rw [List.dropLast_concat]
      have hids : (l' ++ [updateWith inp last]).map (·.id) =
          (l' ++ [last]).map (·.id) := by
        simp [updateWith]
      have hnd2 : IdsNodup (l' ++ [updateWith inp last]) := by
        unfold IdsNodup
        rw [hids]
        exact h
      rw [dedupe_eq_self hnd2, hids]
      exact List.mem_map_of_mem _ hm
    · rw [if_neg hmc]
      exact happend
  next heq => exact happend

lemma storeAnswer_preserves_ids {msgs : List Msg} (inp : TurnInput)
    (h : IdsNodup msgs) :
    ∀ m ∈ msgs, m.id ∈ (storeAnswer msgs msgs inp).map (·.id) := by
  intro m hm
  unfold storeAnswer
  by_cases hdrop : trim (contentForStorageOf inp) = []
  · rw [if_pos hdrop]
    exact List.mem_map_of_mem _ hm
  rw [if_neg hdrop]
  rcases hlook : lookupAssistantByTurn msgs inp.turnId with _ | eid
  · simp only [hlook]
    exact tail_preserves_ids inp h hm
  · rcases hidx : msgs.findIdx? (fun (m : Msg) => m.id == eid) with _ | i
    · simp only [hlook, hidx]
      exact tail_preserves_ids inp h hm
    · simp only [hlook, hidx]
      have hids : ∀ m' ∈ msgs,
          ((fun (m : Msg) => if m.id = eid then updateWith inp m else m) m').id = m'.id := by
        intro m' _
        by_cases hid : m'.id = eid
        · simp [hid, updateWith]
        · simp [hid]
      have hmap : (msgs.map (fun (m : Msg) => if m.id = eid then updateWith inp m else m)).map (·.id)
          = msgs.map (·.id) := by
        rw [List.map_map]
        exact List.map_congr_left fun m' hm' => hids m' hm'
      have hnd2 : IdsNodup (msgs.map (fun (m : Msg) => if m.id = eid then updateWith inp m else m)) := by
        unfold IdsNodup
        rw [hmap]
        exact h
      rw [dedupe_eq_self hnd2, hmap]
      exact List.mem_map_of_mem _ hm

end Messages

namespace Messages

open Streaming (Str)

/-- C3: after every operation that mutates the message list — sending a
turn (appending the user message), completing a turn (storing the
assistant answer, possibly updating in place), or appending an error
message — the list contains no two entries with the same id and at most
one assistant message per turn id. -/
theorem claim3_message_invariants :
    ∀ msgs : List Msg, WellFormedMessages msgs →
      (∀ (turnId : String) (content : Str) (ts : Nat),
          WellFormedMessages (appendUserMessage msgs turnId content ts)) ∧
      (∀ (clearPrev : Bool) (inp : TurnInput),
          WellFormedMessages (completeTurn clearPrev msgs inp)) ∧
      (∀ (errId : String) (ts : Nat),
          WellFormedMessages (appendErrorMessage msgs errId ts)) := by
  intro msgs hwf
  refine ⟨?_, ?_, ?_⟩
  · intro turnId content ts
    refine ⟨idsNodup_dedupe _, atMostOne_of_sublist (dedupe_sublist _) ?_⟩
    exact atMostOne_append_nonTurn (by simp [isTurnAssistant]) hwf.2
  · intro clearPrev inp
    unfold completeTurn
    cases clearPrev with
    | false => exact storeAnswer_wf inp hwf (List.Sublist.refl _)
    | true => exact storeAnswer_wf inp hwf (removeLastAssistant_sublist _)
  · intro errId ts
    refine ⟨idsNodup_dedupe _, atMostOne_of_sublist (dedupe_sublist _) ?_⟩
    exact atMostOne_append_nonTurn (by simp [isTurnAssistant]) hwf.2

/-- Witness for C3 at the empty session. -/
theorem claim3_witness :
    WellFormedMessages ([] : List Msg) ∧
      WellFormedMessages (appendUserMessage [] "turn-1" [] 0) :=
  ⟨⟨by simp [IdsNodup], by simp [AtMostOnePerTurn]⟩,
   (claim3_message_invariants [] ⟨by simp [IdsNodup], by simp [AtMostOnePerTurn]⟩).1
     "turn-1" [] 0⟩

/-- C4: if the stream completes and the partitioned final answer is
empty after trimming, the turn is dropped rather than stored: the
message list is returned unchanged — no assistant message and no error
message is appended for that turn. -/
theorem claim4_empty_answer_drops :
    ∀ (clearPrev : Bool) (msgs : List Msg) (inp : TurnInput),
      Streaming.trim (Streaming.separateAssistantResponse inp.content inp.deltaHistory).answer = [] →
      completeTurn clearPrev msgs inp = msgs := by
  intro clearPrev msgs inp hnil
  have h1 : Streaming.trim inp.content = [] :=
    Streaming.trim_eq_nil_of_answer _ _ hnil
  have h2 : Streaming.trim (contentForStorageOf inp) = [] := by
    unfold contentForStorageOf
    rw [if_neg (by simpa using hnil)]
    rw [Streaming.trim_trimLeft_eq_nil_iff]
    exact h1
  unfold completeTurn storeAnswer
  rw [if_pos h2]

/-- Witness for C4 on a whitespace-only response. -/
theorem claim4_witness :
    Streaming.trim (Streaming.separateAssistantResponse (" ".data) []).answer = [] ∧
      completeTurn false [] ⟨"turn-1", " ".data, [], "msg-1", 0⟩ = [] :=
  ⟨by decide, claim4_empty_answer_drops false [] ⟨"turn-1", " ".data, [], "msg-1", 0⟩ (by decide)⟩

/-- C10: when the clearPreviousAssistant preference is enabled,
completing a turn operates on the message list with exactly the most
recent assistant message removed (and only that one — user messages and
earlier assistant messages are untouched); when the preference is
disabled, no existing message is removed (every stored id survives). -/
theorem claim10_clear_previous :
    ∀ (msgs : List Msg) (inp : TurnInput),
      ((∀ m ∈ msgs, m.role ≠ Role.assistant) → removeLastAssistant msgs = msgs) ∧
      (∀ pre suf (a : Msg), msgs = pre ++ a :: suf → a.role = Role.assistant →
          (∀ m ∈ suf, m.role ≠ Role.assistant) → removeLastAssistant msgs = pre ++ suf) ∧
      completeTurn true msgs inp = storeAnswer (removeLastAssistant msgs) msgs inp ∧
      (IdsNodup msgs → ∀ m ∈ msgs, m.id ∈ (completeTurn false msgs inp).map (·.id)) := by
  intro msgs inp
  refine ⟨?_, ?_, rfl, ?_⟩
  · intro h
    unfold removeLastAssistant
    rw [removeLastAssistantGo_id (by
      intro m hm
      exact h m (List.mem_reverse.mp hm))]
    exact List.reverse_reverse _
  · intro pre suf a hsplit ha hsuf
    subst hsplit
    unfold removeLastAssistant
    rw [List.reverse_append, List.reverse_cons, List.append_assoc,
      List.singleton_append]
    rw [removeLastAssistantGo_append (by
      intro m hm
      exact hsuf m (List.mem_reverse.mp hm)) ha]
    simp [List.reverse_append]
  · intro h m hm
    unfold completeTurn
    exact storeAnswer_preserves_ids inp h m hm

end Messages

namespace Queue

/-- Who started a `sendMessageToAPI` invocation: `handleSendMessage`
directly, or `processQueue`.  The caller determines the continuation
that runs after the send's `finally` block. -/
inductive Origin
  | direct
  | queued
deriving DecidableEq, Repr

/-- State of one session's dispatch machinery.  Submissions are numbered
in order (`nextId`); `queue` is `messageQueueRef`, `processing` is
`isProcessingQueueRef`, `sending` is `isSendingRef`, `streaming` is
`isStreaming`, `inFlight` lists the running `sendMessageToAPI`
invocations with their origins, `dispatched` records the order in which
submissions were handed to the backend, and `timerPending` models the
armed 100 ms `setTimeout` between dequeues. -/
structure QState where
  queue : List Nat
  processing : Bool
  sending : Bool
  streaming : Bool
  inFlight : List (Nat × Origin)
  dispatched : List Nat
  timerPending : Bool
  nextId : Nat
deriving DecidableEq, Repr

/-- The initial, idle state. -/
def initQState : QState := ⟨[], false, false, false, [], [], false, 0⟩

/-- The synchronous prefix of `sendMessageToAPI`: mark sending and
streaming, record the dispatch. -/
def startSend (s : QState) (o : Origin) (m : Nat) : QState :=
  { s with sending := true, streaming := true,
           inFlight := s.inFlight ++ [(m, o)],
           dispatched := s.dispatched ++ [m] }

/-- The synchronous body of `processQueue` up to starting the send: a
no-op when the queue is empty or a queued send is already being
processed; otherwise pop the head, mark processing and start sending. -/
def processQueueStep (s : QState) : QState :=
  if s.queue.isEmpty || s.processing then s
  else
    match s.queue with
    | [] => s
    | h :: t => startSend { s with queue := t, processing := true } Origin.queued h

/-- `handleSendMessage`: if streaming, processing or sending, append to
the queue; otherwise dispatch immediately.  (Duplicate suppression is
not modelled: submissions are distinct.) -/
def submitStep (s : QState) : QState :=
  let m := s.nextId
  let s0 := { s with nextId := m + 1 }
  if s0.streaming || s0.processing || s0.sending then
    { s0 with queue := s0.queue ++ [m] }
  else
    startSend s0 Origin.direct m

/-- Completion (success or failure alike) of the i-th in-flight send:
the `finally` block clears the sending and streaming flags and invokes
`processQueue` when the queue is non-empty and not already processing;
then the caller's continuation runs — a direct caller re-invokes
`processQueue` if the queue is non-empty, a queued caller clears the
processing flag and arms the 100 ms timer if the queue is non-empty. -/
def completeStep (s : QState) (i : Nat) : QState :=
  match s.inFlight.get? i with
  | none => s
  | some (_, o) =>
    let s1 := { s with inFlight := s.inFlight.eraseIdx i,
                       sending := false, streaming := false }
    let s2 := if ¬s1.queue.isEmpty ∧ ¬s1.processing then processQueueStep s1 else s1
    match o with
    | Origin.direct => if ¬s2.queue.isEmpty then processQueueStep s2 else s2
    | Origin.queued =>
      let s3 := { s2 with processing := false }
      if ¬s3.queue.isEmpty then { s3 with timerPending := true } else s3

/-- The armed inter-dequeue timer fires and runs `processQueue`. -/
def timerStep (s : QState) : QState :=
  if s.timerPending then processQueueStep { s with timerPending := false } else s

/-- Events of the dispatch machinery. -/
inductive QEvent
  | submit
  | complete (i : Nat)
  | timer
deriving DecidableEq, Repr

/-- One event step. -/
def step (s : QState) : QEvent → QState
  | QEvent.submit => submitStep s
  | QEvent.complete i => completeStep s i
  | QEvent.timer => timerStep s

/-- Run a list of events from the initial state. -/
def run (es : List QEvent) : QState := es.foldl step initQState

/-- States reachable when no submission happens while the inter-dequeue
timer is pending (the 100 ms window between a queued turn's completion
and the next dequeue). -/
inductive ReachableR : QState → Prop
  | init : ReachableR initQState
  | submit {s : QState} : ReachableR s → s.timerPending = false →
      ReachableR (submitStep s)
  | complete {s : QState} (i : Nat) : ReachableR s → ReachableR (completeStep s i)
  | timer {s : QState} : ReachableR s → ReachableR (timerStep s)

/-- The inductive invariant of the restricted machine: dispatches
followed by the queue list exactly the submissions in order; at most one
send is in flight; flags and timer are consistent with the in-flight
set. -/
def Inv (s : QState) : Prop :=
  s.dispatched ++ s.queue = List.range s.nextId ∧
  s.inFlight.length ≤ 1 ∧
  (s.inFlight = [] →
    s.sending = false ∧ s.streaming = false ∧ s.processing = false ∧
      (s.queue ≠ [] → s.timerPending = true)) ∧
  (∀ m o, s.inFlight = [(m, o)] →
    s.sending = true ∧ s.streaming = true ∧
      (s.processing = true ↔ o = Origin.queued) ∧ s.timerPending = false) ∧
  (s.timerPending = true → s.inFlight = [] ∧ s.queue ≠ [])

end Queue

namespace Queue

lemma inv_init : Inv initQState := by
  refine ⟨rfl, by simp [initQState], by simp [initQState], ?_, by simp [initQState]⟩
  intro m o h
  simp [initQState] at h

lemma inv_submit {s : QState} (ih : Inv s) (ht : s.timerPending = false) :
    Inv (submitStep s) := by
  obtain ⟨h1, h2, h3, h4, h5⟩ := ih
  unfold submitStep
  by_cases hbusy : (s.streaming || s.processing || s.sending) = true
  · simp only [hbusy, if_true]
    refine ⟨?_, h2, ?_, ?_, ?_⟩
    · simp only [← List.append_assoc, h1, List.range_succ]
    · intro he
      rcases h3 he with ⟨hs, hst, hpr, -⟩
      rw [hs, hst, hpr] at hbusy
      simp at hbusy
    · intro m o hmo
      exact h4 m o hmo
    · intro htp
      exact absurd htp (by simp [ht])
  · simp only [if_neg hbusy]
    have hfl : (s.streaming = false ∧ s.processing = false) ∧ s.sending = false := by
      simpa using hbusy
    have hnf : s.inFlight = [] := by
      rcases hin : s.inFlight with _ | ⟨⟨m, o⟩, rest⟩
      · rfl
      · rcases rest with _ | _
        · exact absurd (h4 m o hin).1 (by simp [hfl.2])
        · rw [hin] at h2
          simp at h2
    have hq : s.queue = [] := by
      by_contra hq
      exact absurd ((h3 hnf).2.2.2 hq) (by simp [ht])
    rw [hq, List.append_nil] at h1
    refine ⟨?_, ?_, ?_, ?_, ?_⟩
    · simp [startSend, hq, h1, List.range_succ]
    · simp [startSend, hnf]
    · intro he
      simp [startSend, hnf] at he
    · intro m o hmo
      simp only [startSend, hnf, List.nil_append, List.cons.injEq, Prod.mk.injEq,
        and_true] at hmo
      refine ⟨rfl, rfl, ?_, ht⟩
      constructor
      · intro hp
        simp [startSend, hfl.1.2] at hp
      · intro hoq
        rw [hoq] at hmo
        simp at hmo
    · intro htp
      exact absurd htp (by simp [startSend, ht])

end Queue

namespace Queue

lemma processQueueStep_noop {s : QState} (h : s.processing = true) :
    processQueueStep s = s := by
  unfold processQueueStep
  simp [h]

lemma completeStep_direct_cons {s : QState} {m h' : Nat} {t' : List Nat}
    (hin : s.inFlight = [(m, Origin.direct)]) (hq : s.queue = h' :: t')
    (hpf : s.processing = false) :
    completeStep s 0 =
      ⟨t', true, true, true, [(h', Origin.queued)], s.dispatched ++ [h'],
        s.timerPending, s.nextId⟩ := by
  unfold completeStep
  simp only [hin]
  simp only [List.get?]
  unfold processQueueStep
  simp [hq, hpf, startSend]

end Queue

namespace Queue

lemma completeStep_noop {s : QState} {i : Nat} (h : s.inFlight.get? i = none) :
    completeStep s i = s := by
  unfold completeStep
  rw [h]

lemma completeStep_direct_nil {s : QState} {m : Nat}
    (hin : s.inFlight = [(m, Origin.direct)]) (hq : s.queue = [])
    (hpf : s.processing = false) :
    completeStep s 0 =
      ⟨[], false, false, false, [], s.dispatched, s.timerPending, s.nextId⟩ := by
  unfold completeStep
  simp only [hin, List.get?]
  unfold processQueueStep
  simp [hq, hpf]

lemma completeStep_queued_nil {s : QState} {m : Nat}
    (hin : s.inFlight = [(m, Origin.queued)]) (hq : s.queue = [])
    (hpt : s.processing = true) :
    completeStep s 0 =
      ⟨[], false, false, false, [], s.dispatched, s.timerPending, s.nextId⟩ := by
  unfold completeStep
  simp only [hin, List.get?]
  simp [hq, hpt]

lemma completeStep_queued_cons {s : QState} {m h' : Nat} {t' : List Nat}
    (hin : s.inFlight = [(m, Origin.queued)]) (hq : s.queue = h' :: t')
    (hpt : s.processing = true) :
    completeStep s 0 =
      ⟨h' :: t', false, false, false, [], s.dispatched, true, s.nextId⟩ := by
  unfold completeStep
  simp only [hin, List.get?]
  simp [hq, hpt]

lemma timerStep_noop {s : QState} (h : s.timerPending = false) : timerStep s = s := by
  unfold timerStep
  simp [h]

lemma timerStep_fire {s : QState} {h' : Nat} {t' : List Nat}
    (ht : s.timerPending = true) (hq : s.queue = h' :: t')
    (hpf : s.processing = false) (hinf : s.inFlight = []) :
    timerStep s =
      ⟨t', true, true, true, [(h', Origin.queued)], s.dispatched ++ [h'],
        false, s.nextId⟩ := by
  unfold timerStep
  rw [if_pos ht]
  unfold processQueueStep
  simp [hq, hpf, hinf, startSend]

lemma inv_complete {s : QState} (ih : Inv s) (i : Nat) : Inv (completeStep s i) := by
  obtain ⟨h1, h2, h3, h4, h5⟩ := ih
  rcases hin : s.inFlight with _ | ⟨⟨m, o⟩, rest⟩
  · rw [completeStep_noop (by simp [hin])]
    exact ⟨h1, h2, h3, h4, h5⟩
  rcases rest with _ | ⟨x, rest2⟩
  swap
  · rw [hin] at h2
    simp at h2
  obtain ⟨hsend, hstream, hproc, htimer⟩ := h4 m o hin
  rcases i with _ | j
  swap
  · rw [completeStep_noop (by rw [hin]; rfl)]
    exact ⟨h1, h2, h3, h4, h5⟩
  cases o with
  | direct =>
    have hpf : s.processing = false := by simpa using hproc
    rcases hq : s.queue with _ | ⟨h', t'⟩
    · rw [completeStep_direct_nil hin hq hpf]
      rw [hq] at h1
      refine ⟨h1, by simp, ?_, ?_, ?_⟩
      · intro _
        exact ⟨rfl, rfl, rfl, fun hqq => absurd rfl hqq⟩
      · intro m' o' h
        simp at h
      · intro htp
        exact absurd htp (by simp [htimer])
    · rw [completeStep_direct_cons hin hq hpf]
      rw [hq] at h1
      refine ⟨?_, by simp, ?_, ?_, ?_⟩
      · rw [List.append_assoc, List.singleton_append]
        exact h1
      · intro he
        simp at he
      · intro m' o' h
        simp only [List.cons.injEq, Prod.mk.injEq, and_true] at h
        obtain ⟨hm', ho'⟩ := h
        exact ⟨rfl, rfl, by simp [← ho'], htimer⟩
      · intro htp
        exact absurd htp (by simp [htimer])
  | queued =>
    have hpt : s.processing = true := hproc.mpr rfl
    rcases hq : s.queue with _ | ⟨h', t'⟩
    · rw [completeStep_queued_nil hin hq hpt]
      rw [hq] at h1
      refine ⟨h1, by simp, ?_, ?_, ?_⟩
      · intro _
        exact ⟨rfl, rfl, rfl, fun hqq => absurd rfl hqq⟩
      · intro m' o' h
        simp at h
      · intro htp
        exact absurd htp (by simp [htimer])
    · rw [completeStep_queued_cons hin hq hpt]
      rw [hq] at h1
      refine ⟨h1, by simp, ?_, ?_, ?_⟩
      · intro _
        exact ⟨rfl, rfl, rfl, fun _ => rfl⟩
      · intro m' o' h
        simp at h
      · intro _
        exact ⟨rfl, by simp⟩

lemma inv_timer {s : QState} (ih : Inv s) : Inv (timerStep s) := by
  obtain ⟨h1, h2, h3, h4, h5⟩ := ih
  by_cases ht : s.timerPending = true
  · obtain ⟨hinf, hqne⟩ := h5 ht
    obtain ⟨hsf, hstf, hpf, -⟩ := h3 hinf
    rcases hq : s.queue with _ | ⟨h', t'⟩
    · exact absurd hq hqne
    · rw [timerStep_fire ht hq hpf hinf]
      rw [hq] at h1
      refine ⟨?_, by simp, ?_, ?_, ?_⟩
      · rw [List.append_assoc, List.singleton_append]
        exact h1
      · intro he
        simp at he
      · intro m' o' h
        simp only [List.cons.injEq, Prod.mk.injEq, and_true] at h
        obtain ⟨hm', ho'⟩ := h
        exact ⟨rfl, rfl, by simp [← ho'], rfl⟩
      · intro htp
        simp at htp
  · rw [timerStep_noop (by simpa using ht)]
    exact ⟨h1, h2, h3, h4, h5⟩

lemma inv_reachable : ∀ s : QState, ReachableR s → Inv s := by
  intro s h
  induction h with
  | init => exact inv_init
  | submit _ ht ih => exact inv_submit ih ht
  | complete i _ ih => exact inv_complete ih i
  | timer _ ih => exact inv_timer ih

end Queue

namespace Queue

/-- C2 as stated is false on the code: in the interleaving where a new
submission arrives during the 100 ms window between a queued turn's
completion and the next dequeue (all busy flags are then false), the
submission is dispatched immediately ahead of the still-queued entry,
and the timer then dispatches the queued entry concurrently — two
requests in flight and dispatch order out of submission order. -/
theorem claim2_counterexample :
    ¬ (∀ es : List QEvent,
        (run es).inFlight.length ≤ 1 ∧
          List.Pairwise (· < ·) (run es).dispatched) := by
  intro h
  have := h [QEvent.submit, QEvent.submit, QEvent.complete 0, QEvent.submit,
    QEvent.complete 0, QEvent.submit, QEvent.timer]
  revert this
  decide

/-- C2 (amended): for every interleaving in which no submission occurs
while the inter-dequeue timer is pending, at most one backend request is
in flight at any time, and dispatches happen strictly in submission
order. -/
theorem claim2_queue_serialization :
    ∀ s : QState, ReachableR s →
      s.inFlight.length ≤ 1 ∧ List.Pairwise (· < ·) s.dispatched := by
  intro s h
  have hinv := inv_reachable s h
  refine ⟨hinv.2.1, ?_⟩
  have hsub : s.dispatched.Sublist (List.range s.nextId) :=
    hinv.1 ▸ List.sublist_append_left _ _
  exact (List.pairwise_lt_range _).sublist hsub

/-- Witness for C2 on the trace submit, submit, complete. -/
theorem claim2_witness :
    (completeStep (submitStep (submitStep initQState)) 0).inFlight.length ≤ 1 ∧
      List.Pairwise (· < ·)
        (completeStep (submitStep (submitStep initQState)) 0).dispatched :=
  claim2_queue_serialization _
    (ReachableR.complete 0
      (ReachableR.submit (ReachableR.submit ReachableR.init rfl) rfl))

/-- C5: a failed turn appends exactly one synthetic assistant-role error
message (the catch block), and queue processing resumes for subsequent
queued entries — the completion path of the `finally` block is the same
for success and failure, so with a queued entry at the head it is
dispatched right after the failing turn completes (directly for a
direct-origin send, at the next timer fire for a queued-origin send). -/
theorem claim5_error_handling :
    (∀ (msgs : List Messages.Msg) (errId : String) (ts : Nat),
        Messages.IdsNodup msgs → errId ∉ msgs.map (·.id) →
        Messages.appendErrorMessage msgs errId ts =
          msgs ++ [⟨errId, Messages.Role.assistant, Messages.errorContent, none, none, ts⟩]) ∧
    (∀ (s : QState) (m h' : Nat) (t' : List Nat),
        s.inFlight = [(m, Origin.direct)] → s.queue = h' :: t' →
        s.processing = false →
        (completeStep s 0).dispatched = s.dispatched ++ [h']) ∧
    (∀ (s : QState) (m h' : Nat) (t' : List Nat),
        s.inFlight = [(m, Origin.queued)] → s.queue = h' :: t' →
        s.processing = true →
        (timerStep (completeStep s 0)).dispatched = s.dispatched ++ [h']) := by
  refine ⟨?_, ?_, ?_⟩
  · intro msgs errId ts hnd hfresh
    unfold Messages.appendErrorMessage
    apply Messages.dedupe_eq_self
    unfold Messages.IdsNodup
    rw [List.map_append, List.nodup_append]
    refine ⟨hnd, by simp, ?_⟩
    intro i hi
    simp only [List.map_cons, List.map_nil, List.mem_singleton]
    intro he
    exact hfresh (he ▸ hi)
  · intro s m h' t' hin hq hpf
    rw [completeStep_direct_cons hin hq hpf]
  · intro s m h' t' hin hq hpt
    rw [completeStep_queued_cons hin hq hpt]
    rw [timerStep_fire rfl rfl rfl rfl]

/-- Witness for C5 at an empty conversation. -/
theorem claim5_witness :
    Messages.appendErrorMessage [] "err-1" 5 =
      [⟨"err-1", Messages.Role.assistant, Messages.errorContent, none, none, 5⟩] :=
  claim5_error_handling.1 [] "err-1" 5 (by simp [Messages.IdsNodup]) (by simp)

end Queue

namespace Messages

/-- Witness for C10 on a two-message conversation. -/
theorem claim10_witness :
    removeLastAssistant
        [⟨"u1", Role.user, [], none, some "t1", 0⟩,
         ⟨"a1", Role.assistant, [], none, some "t1", 1⟩] =
      [⟨"u1", Role.user, [], none, some "t1", 0⟩] :=
  (claim10_clear_previous
      [⟨"u1", Role.user, [], none, some "t1", 0⟩,
       ⟨"a1", Role.assistant, [], none, some "t1", 1⟩]
      ⟨"t2", [], [], "f1", 2⟩).2.1
    [⟨"u1", Role.user, [], none, some "t1", 0⟩] []
    ⟨"a1", Role.assistant, [], none, some "t1", 1⟩ rfl rfl (by simp)

end Messages

namespace Resolver

/-- A bounding rectangle in page pixels (floats modelled as rationals). -/
structure DomRect where
  top : ℚ
  left : ℚ
  width : ℚ
  height : ℚ
deriving DecidableEq, Repr

/-- A live page element: node identity `key`, optional id attribute,
optional `data-nabokov-chat-id` attribute, current bounding rectangle,
and its structural (XPath) address. -/
structure Elem where
  key : Nat
  eid : Option String
  chatId : Option String
  rect : DomRect
  xpath : String
deriving DecidableEq, Repr

/-- A serialized element descriptor (the fields
`resolveElementForDescriptor` consults). -/
structure ElemDescriptor where
  chatId : String
  id : Option String
  cssSelector : Option String
  xpath : Option String
  boundingRect : Option DomRect
deriving DecidableEq, Repr

/-- Outcome of `document.querySelector` on a selector string: the call
throws on an invalid selector, otherwise finds an element or nothing. -/
inductive SelectorResult
  | invalid
  | notFound
  | found (e : Elem)
deriving DecidableEq, Repr

/-- The page: its elements in document order, and the behaviour of
selector queries. -/
structure Dom where
  elems : List Elem
  selectorResult : String → SelectorResult

/-- `document.getElementById`: first element carrying the id. -/
def getElementById (dom : Dom) (i : String) : Option Elem :=
  dom.elems.find? (fun e => e.eid == some i)

/-- `document.querySelectorAll` on the `data-nabokov-chat-id` attribute
selector, in document order. -/
def chatIdMatches (dom : Dom) (cid : String) : List Elem :=
  dom.elems.filter (fun e => e.chatId == some cid)

/-- The 5 px top/left proximity test against the descriptor's recorded
rectangle; a missing recorded rectangle never matches. -/
def rectClose (target : Option DomRect) (r : DomRect) : Bool :=
  match target with
  | some tr => |r.top - tr.top| < 5 ∧ |r.left - tr.left| < 5
  | none => false

/-- Modelled from the spec: `findElementByDescriptor` of
elementIdService (its source is not under src/) is the last-resort
structural lookup — resolution by the descriptor's XPath. -/
def findElementByDescriptor (dom : Dom) (d : ElemDescriptor) : Option Elem :=
  match d.xpath with
  | some xp => dom.elems.find? (fun e => e.xpath == xp)
  | none => none

/-- `resolveElementForDescriptor` from ElementChatWindow.tsx: id lookup,
then guarded CSS-selector lookup (invalid selectors caught), then
chat-id attribute lookup with rectangle-proximity disambiguation, then
the structural fallback. -/
def resolveElementForDescriptor (dom : Dom) (d : ElemDescriptor) : Option Elem :=
  match (match d.id with
         | some i => getElementById dom i
         | none => none) with
  | some e => some e
  | none =>
    match (match d.cssSelector with
           | some sel =>
             match dom.selectorResult sel with
             | SelectorResult.found e => some e
             | SelectorResult.notFound => none
             | SelectorResult.invalid => none
           | none => none) with
    | some e => some e
    | none =>
      match chatIdMatches dom d.chatId with
      | [] => findElementByDescriptor dom d
      | first :: rest =>
        match (if rest ≠ [] then
                 (first :: rest).find? (fun c => rectClose d.boundingRect c.rect)
               else none) with
        | some c => some c
        | none => some first

/-- Step 1 of the spec's resolution order: lookup by id. -/
def stepById (dom : Dom) (d : ElemDescriptor) : Option Elem :=
  match d.id with
  | some i => getElementById dom i
  | none => none

/-- Step 2: lookup by CSS selector, invalid-selector failures caught
rather than thrown. -/
def stepBySelector (dom : Dom) (d : ElemDescriptor) : Option Elem :=
  match d.cssSelector with
  | some sel =>
    match dom.selectorResult sel with
    | SelectorResult.found e => some e
    | SelectorResult.notFound => none
    | SelectorResult.invalid => none
  | none => none

/-- Step 3: all elements carrying the descriptor's logical identifier
attribute; with more than one match, a candidate within 5 px top/left of
the recorded rectangle, else the first match. -/
def stepByChatId (dom : Dom) (d : ElemDescriptor) : Option Elem :=
  match chatIdMatches dom d.chatId with
  | [] => none
  | first :: rest =>
    match (if rest ≠ [] then
             (first :: rest).find? (fun c => rectClose d.boundingRect c.rect)
           else none) with
    | some c => some c
    | none => some first

/-- The spec's resolution chain: the four steps tried in order, first
success returned. -/
def resolveSpec (dom : Dom) (d : ElemDescriptor) : Option Elem :=
  match stepById dom d with
  | some e => some e
  | none =>
    match stepBySelector dom d with
    | some e => some e
    | none =>
      match stepByChatId dom d with
      | some e => some e
      | none => findElementByDescriptor dom d

/-- The descriptor captured from a live element. -/
def mkDescriptor (e : Elem) (cid : String) (sel : Option String) : ElemDescriptor :=
  ⟨cid, e.eid, sel, some e.xpath, some e.rect⟩

end Resolver

namespace Resolver

lemma step3_eq (dom : Dom) (d : ElemDescriptor) :
    (match chatIdMatches dom d.chatId with
      | [] => findElementByDescriptor dom d
      | first :: rest =>
        match (if rest ≠ [] then
                 (first :: rest).find? (fun c => rectClose d.boundingRect c.rect)
               else none) with
        | some c => some c
        | none => some first) =
    (match stepByChatId dom d with
      | some e => some e
      | none => findElementByDescriptor dom d) := by
  unfold stepByChatId
  rcases chatIdMatches dom d.chatId with _ | ⟨first, rest⟩
  · rfl
  · rcases hf : (if rest ≠ [] then
        (first :: rest).find? (fun c => rectClose d.boundingRect c.rect)
      else none) with _ | c
    · simp [hf]
    · simp [hf]

lemma resolve_eq_spec (dom : Dom) (d : ElemDescriptor) :
    resolveElementForDescriptor dom d = resolveSpec dom d := by
  have h3 := step3_eq dom d
  rcases hid : d.id with _ | i
  · rcases hcss : d.cssSelector with _ | sel
    · unfold resolveElementForDescriptor resolveSpec stepById stepBySelector
      simp only [hid, hcss]
      exact h3
    · rcases hsr : dom.selectorResult sel with _ | _ | e
      · unfold resolveElementForDescriptor resolveSpec stepById stepBySelector
        simp only [hid, hcss, hsr]
        exact h3
      · unfold resolveElementForDescriptor resolveSpec stepById stepBySelector
        simp only [hid, hcss, hsr]
        exact h3
      · unfold resolveElementForDescriptor resolveSpec stepById stepBySelector
        simp only [hid, hcss, hsr]
  · rcases hg : getElementById dom i with _ | e
    · rcases hcss : d.cssSelector with _ | sel
      · unfold resolveElementForDescriptor resolveSpec stepById stepBySelector
        simp only [hid, hcss, hg]
        exact h3
      · rcases hsr : dom.selectorResult sel with _ | _ | e
        · unfold resolveElementForDescriptor resolveSpec stepById stepBySelector
          simp only [hid, hcss, hsr, hg]
          exact h3
        · unfold resolveElementForDescriptor resolveSpec stepById stepBySelector
          simp only [hid, hcss, hsr, hg]
          exact h3
        · unfold resolveElementForDescriptor resolveSpec stepById stepBySelector
          simp only [hid, hcss, hsr, hg]
    · unfold resolveElementForDescriptor resolveSpec stepById stepBySelector
      simp only [hid, hg]

end Resolver

namespace Resolver

lemma getElementById_roundTrip {dom : Dom} {e : Elem} {i : String}
    (he : e ∈ dom.elems) (heid : e.eid = some i)
    (hidu : ∀ e' ∈ dom.elems, e'.eid = some i → e' = e) :
    getElementById dom i = some e := by
  unfold getElementById
  rcases hf : dom.elems.find? (fun e' => e'.eid == some i) with _ | e''
  · exfalso
    have hall := List.find?_eq_none.mp hf
    exact hall e he (by simp [heid])
  · have h1 := List.find?_some hf
    have h2 := List.mem_of_find?_eq_some hf
    rw [← hidu e'' h2 (by simpa using h1)]
    exact hf

lemma roundTrip {dom : Dom} {e : Elem} {cid : String} {sel : Option String}
    (he : e ∈ dom.elems) (hcid : e.chatId = some cid)
    (hidu : ∀ i, e.eid = some i → ∀ e' ∈ dom.elems, e'.eid = some i → e' = e)
    (hselu : ∀ s, sel = some s → dom.selectorResult s = SelectorResult.found e)
    (hchatu : ∀ e' ∈ dom.elems, e'.chatId = some cid → e' = e) :
    resolveElementForDescriptor dom (mkDescriptor e cid sel) = some e := by
  unfold resolveElementForDescriptor mkDescriptor
  rcases heid : e.eid with _ | i
  · rcases hsel : sel with _ | s
    · simp only []
      have hmem : e ∈ chatIdMatches dom cid := List.mem_filter.mpr ⟨he, by simp [hcid]⟩
      have hall : ∀ x ∈ chatIdMatches dom cid, x = e := by
        intro x hx
        have hx' := List.mem_filter.mp hx
        exact hchatu x hx'.1 (by simpa using hx'.2)
      rcases hcm : chatIdMatches dom cid with _ | ⟨first, rest⟩
      · rw [hcm] at hmem
        simp at hmem
      · have hfe : first = e := hall first (by rw [hcm]; exact List.mem_cons_self _ _)
        subst hfe
        by_cases hr : rest = []
        · subst hr
          simp [hcm]
        · have hpred : rectClose (some first.rect) first.rect = true := by
            simp [rectClose]
          have hfind : (first :: rest).find? (fun c => rectClose (some first.rect) c.rect) =
              some first := List.find?_cons_of_pos _ hpred
          simp [hcm, hr, hfind]
    · have hsr := hselu s hsel
      simp [heid, hsr]
  · have hg := getElementById_roundTrip he heid (hidu i heid)
    simp [heid, hg]

end Resolver

namespace Resolver

/-- C6: element resolution tries exactly the four strategies in order —
id lookup, guarded CSS-selector lookup (invalid selectors caught, not
thrown), chat-id attribute lookup with 5 px rectangle-proximity
disambiguation, structural fallback — returning the first success; and
for a descriptor whose element is still present unchanged (its id,
selector and logical identifier still single out that element),
resolution returns that exact element. -/
theorem claim6_resolution :
    (∀ (dom : Dom) (d : ElemDescriptor),
        resolveElementForDescriptor dom d = resolveSpec dom d) ∧
    (∀ (dom : Dom) (e : Elem) (cid : String) (sel : Option String),
        e ∈ dom.elems → e.chatId = some cid →
        (∀ i, e.eid = some i → ∀ e' ∈ dom.elems, e'.eid = some i → e' = e) →
        (∀ s, sel = some s → dom.selectorResult s = SelectorResult.found e) →
        (∀ e' ∈ dom.elems, e'.chatId = some cid → e' = e) →
        resolveElementForDescriptor dom (mkDescriptor e cid sel) = some e) :=
  ⟨resolve_eq_spec, fun _ _ _ _ he hcid h1 h2 h3 => roundTrip he hcid h1 h2 h3⟩

/-- Witness for C6 on a one-element page. -/
theorem claim6_witness :
    resolveElementForDescriptor
        ⟨[⟨0, some "el-1", some "chat-1", ⟨10, 20, 30, 40⟩, "xp-1"⟩],
          fun _ => SelectorResult.notFound⟩
        (mkDescriptor ⟨0, some "el-1", some "chat-1", ⟨10, 20, 30, 40⟩, "xp-1"⟩
          "chat-1" none) =
      some ⟨0, some "el-1", some "chat-1", ⟨10, 20, 30, 40⟩, "xp-1"⟩ :=
  claim6_resolution.2 _ _ _ _ (by simp) rfl
    (by intro i hi e' he' hi2; simpa using he')
    (by intro s hs; exact Option.noConfusion hs)
    (by intro e' he' h; simpa using he')

end Resolver

namespace Anchoring

open Resolver (DomRect)

/-- A 2-D pixel vector (floats modelled as rationals). -/
structure Vec where
  x : ℚ
  y : ℚ
deriving DecidableEq, Repr

/-- `Map.set` on the per-anchor offset map (assoc list keyed by
descriptor key). -/
def setOffset (m : List (String × Vec)) (k : String) (v : Vec) : List (String × Vec) :=
  match m with
  | [] => [(k, v)]
  | (k', v') :: rest => if k' = k then (k, v) :: rest else (k', v') :: setOffset rest k v

/-- `Map.get` on the per-anchor offset map. -/
def lookupOffset (m : List (String × Vec)) (k : String) : Option Vec :=
  match m with
  | [] => none
  | (k', v') :: rest => if k' = k then some v' else lookupOffset rest k

/-- The mutable anchoring state of one chat window: current window
position (`positionRef`), active cached offset (`anchorOffsetRef`),
per-anchor offset map (`anchorOffsetsRef`), active anchor key
(`activeAnchorKeyRef`), the anchor-missing flag, and whether the user
is currently dragging (`isDraggingRef`). -/
structure AnchorState where
  position : Vec
  anchorOffset : Option Vec
  offsets : List (String × Vec)
  activeKey : Option String
  anchorMissing : Bool
  dragging : Bool
deriving DecidableEq, Repr

/-- The page environment a repositioning tick sees: the descriptor keys
in list order (`descriptorList` via `descriptorKeyMap`), membership in
`descriptorMap`, and for each key whether its descriptor currently
resolves and to which bounding rectangle. -/
structure TickEnv where
  descriptorList : List String
  mapKeys : List String
  resolve : String → Option DomRect

/-- Push a descriptor key unless already included
(`priorityDescriptors.includes`). -/
def pushUnique (acc : List String) (k : String) : List String :=
  if k ∈ acc then acc else acc ++ [k]

/-- The priority list: the active anchor's descriptor first (when the
map still has it), then the remaining descriptors in list order. -/
def priorityKeys (env : TickEnv) (active : Option String) : List String :=
  env.descriptorList.foldl pushUnique
    (match active with
     | some k => if k ∈ env.mapKeys then [k] else []
     | none => [])

/-- The resolution loop: first descriptor in the priority list that the
resolver finds, together with its bounding rectangle. -/
def firstResolved (env : TickEnv) : List String → Option (String × DomRect)
  | [] => none
  | k :: ks =>
    match env.resolve k with
    | some r => some (k, r)
    | none => firstResolved env ks

/-- Offset inference: when no offset is cached, infer it as current
window position minus the anchor rectangle and store it for the
resolved key. -/
def inferStep (k : String) (rect : DomRect) (s : AnchorState) : AnchorState :=
  match s.anchorOffset with
  | none =>
    { s with
        anchorOffset := some ⟨s.position.x - rect.left, s.position.y - rect.top⟩,
        offsets := setOffset s.offsets k
          ⟨s.position.x - rect.left, s.position.y - rect.top⟩ }
  | some _ => s

/-- Repositioning: with a cached offset and no drag in progress, move to
anchor rectangle plus offset when the delta exceeds 0.5 px in x or y. -/
def moveStep (rect : DomRect) (s : AnchorState) : AnchorState :=
  match s.anchorOffset with
  | some off =>
    if s.dragging then s
    else if |rect.left + off.x - s.position.x| > 1/2 ∨
            |rect.top + off.y - s.position.y| > 1/2 then
      { s with position := ⟨rect.left + off.x, rect.top + off.y⟩ }
    else s
  | none => s

/-- Final persistence: the resolved key's entry in the offset map is
refreshed from the cached offset. -/
def persistStep (k : String) (s : AnchorState) : AnchorState :=
  match s.anchorOffset with
  | some off => { s with offsets := setOffset s.offsets k off }
  | none => s

/-- `ensureAnchorPosition` from ElementChatWindow.tsx: resolve the first
descriptor in the priority list; none → mark the anchor missing and
stop; otherwise clear the missing flag, adopt the resolved key, infer a
missing offset, reposition, persist the offset. -/
def ensureAnchorPosition (env : TickEnv) (s : AnchorState) : AnchorState :=
  match firstResolved env (priorityKeys env s.activeKey) with
  | none => { s with anchorMissing := true }
  | some (k, rect) =>
    persistStep k (moveStep rect (inferStep k rect
      { s with anchorMissing := false, activeKey := some k }))

lemma infer_offset_move (k : String) (rect : DomRect) (s : AnchorState)
    (hoff : s.anchorOffset = none) :
    moveStep rect (inferStep k rect s) = inferStep k rect s := by
  unfold inferStep
  rw [hoff]
  unfold moveStep
  simp only
  have hx : |rect.left + (s.position.x - rect.left) - s.position.x| = 0 := by
    rw [abs_eq_zero]; ring
  have hy : |rect.top + (s.position.y - rect.top) - s.position.y| = 0 := by
    rw [abs_eq_zero]; ring
  rw [hx, hy]
  have hc : ¬((0 : ℚ) > 1/2 ∨ (0 : ℚ) > 1/2) := by norm_num
  rw [if_neg hc]
  split <;> rfl

/-- C7: on every anchor-repositioning tick — (a) when no descriptor in
the priority list resolves, the tick marks the anchor missing and
leaves the window position unchanged; (b) when one resolves and no
offset is cached, the offset is inferred as current window position
minus the anchor rectangle and the window does not move; (c) when one
resolves and an offset is cached, the window moves to anchor rectangle
plus offset exactly when the user is not dragging and the delta exceeds
0.5 px in x or y, and otherwise stays put. -/
theorem claim7_anchor_tick :
    (∀ (env : TickEnv) (s : AnchorState),
        firstResolved env (priorityKeys env s.activeKey) = none →
        (ensureAnchorPosition env s).anchorMissing = true ∧
        (ensureAnchorPosition env s).position = s.position) ∧
    (∀ (env : TickEnv) (s : AnchorState) (k : String) (r : DomRect),
        firstResolved env (priorityKeys env s.activeKey) = some (k, r) →
        s.anchorOffset = none →
        (ensureAnchorPosition env s).anchorOffset =
          some ⟨s.position.x - r.left, s.position.y - r.top⟩ ∧
        (ensureAnchorPosition env s).position = s.position) ∧
    (∀ (env : TickEnv) (s : AnchorState) (k : String) (r : DomRect) (off : Vec),
        firstResolved env (priorityKeys env s.activeKey) = some (k, r) →
        s.anchorOffset = some off →
        (ensureAnchorPosition env s).position =
          (if s.dragging = false ∧
              (|r.left + off.x - s.position.x| > 1/2 ∨
               |r.top + off.y - s.position.y| > 1/2) then
             (⟨r.left + off.x, r.top + off.y⟩ : Vec)
           else s.position)) := by
  refine ⟨?_, ?_, ?_⟩
  · intro env s h
    unfold ensureAnchorPosition
    simp only [h]
    exact ⟨by trivial, by trivial⟩
  · intro env s k r hfr hoff
    unfold ensureAnchorPosition
    simp only [hfr]
    rw [infer_offset_move k r _ (by simpa using hoff)]
    unfold inferStep
    simp only [hoff]
    unfold persistStep
    exact ⟨by trivial, by trivial⟩
  · intro env s k r off hfr hoff
    unfold ensureAnchorPosition
    simp only [hfr]
    unfold inferStep
    simp only [hoff]
    unfold moveStep
    simp only [hoff]
    rcases hd : s.dragging with _ | _
    · simp only [hd, if_false, Bool.false_eq_true]
      by_cases hc : |r.left + off.x - s.position.x| > 1/2 ∨
          |r.top + off.y - s.position.y| > 1/2
      · rw [if_pos hc, if_pos ⟨by trivial, hc⟩]
        unfold persistStep
        simp [hoff]
      · rw [if_neg hc, if_neg (fun h => hc h.2)]
        unfold persistStep
        simp [hoff]
    · simp only [hd, if_true]
      rw [if_neg (fun h => by simpa [hd] using h.1)]
      unfold persistStep
      simp [hoff]

/-- Witness for C7: a one-anchor page; branch (b) infers the offset and
keeps the window at (30, 40). -/
theorem claim7_witness :
    (firstResolved ⟨["a"], ["a"], fun k => if k = "a" then some ⟨10, 20, 50, 60⟩ else none⟩
        (priorityKeys ⟨["a"], ["a"], fun k => if k = "a" then some ⟨10, 20, 50, 60⟩ else none⟩
          (some "a")) = some ("a", ⟨10, 20, 50, 60⟩)) ∧
    (ensureAnchorPosition
        ⟨["a"], ["a"], fun k => if k = "a" then some ⟨10, 20, 50, 60⟩ else none⟩
        ⟨⟨30, 40⟩, none, [], some "a", false, false⟩).anchorOffset =
      some ⟨(30 : ℚ) - 20, (40 : ℚ) - 10⟩ ∧
    (ensureAnchorPosition
        ⟨["a"], ["a"], fun k => if k = "a" then some ⟨10, 20, 50, 60⟩ else none⟩
        ⟨⟨30, 40⟩, none, [], some "a", false, false⟩).position = ⟨30, 40⟩ := by
  have h := claim7_anchor_tick.2.1
    ⟨["a"], ["a"], fun k => if k = "a" then some ⟨10, 20, 50, 60⟩ else none⟩
    ⟨⟨30, 40⟩, none, [], some "a", false, false⟩ "a" ⟨10, 20, 50, 60⟩
    (by decide) rfl
  exact ⟨by decide, h.1, h.2⟩

end Anchoring

namespace Anchoring

open Resolver (DomRect)

/-- `ANCHOR_ALIGNMENT_NUDGE_PX` from ElementChatWindow.tsx line 99. -/
def ANCHOR_ALIGNMENT_NUDGE_PX : ℚ := 32

/-- The anchor chip click handler's offset choice before the nudge:
the stored offset for the target key, else the currently cached active
offset, else the default ⟨min (width + 20) 240, 0⟩. -/
def chipOffsetRaw (s : AnchorState) (k : String) (rect : DomRect) : Vec :=
  match lookupOffset s.offsets k with
  | some stored => stored
  | none =>
    match s.anchorOffset with
    | some cur => cur
    | none => ⟨min (rect.width + 20) 240, 0⟩

/-- The applied offset: when no stored offset exists for the target key
the raw offset is shifted up by the one-time 32 px nudge. -/
def chipOffset (s : AnchorState) (k : String) (rect : DomRect) : Vec :=
  match lookupOffset s.offsets k with
  | some _ => chipOffsetRaw s k rect
  | none => ⟨(chipOffsetRaw s k rect).x,
             (chipOffsetRaw s k rect).y - ANCHOR_ALIGNMENT_NUDGE_PX⟩

/-- The anchor chip onClick handler, in the branch where the target
descriptor resolves to an element with rectangle `rect`: adopt the key,
clear the missing flag, cache and persist the applied offset, move the
window to the target rectangle plus that offset. -/
def chipSwitch (s : AnchorState) (k : String) (rect : DomRect) : AnchorState :=
  { s with
      activeKey := some k,
      anchorMissing := false,
      anchorOffset := some (chipOffset s k rect),
      offsets := setOffset s.offsets k (chipOffset s k rect),
      position := ⟨rect.left + (chipOffset s k rect).x,
                   rect.top + (chipOffset s k rect).y⟩ }

/-- The claim's two-branch offset choice: stored offset applied
unchanged, otherwise the clamped default shifted by the 32 px nudge. -/
def chipOffsetClaimed (s : AnchorState) (k : String) (rect : DomRect) : Vec :=
  match lookupOffset s.offsets k with
  | some stored => stored
  | none => ⟨min (rect.width + 20) 240, 0 - ANCHOR_ALIGNMENT_NUDGE_PX⟩

lemma lookup_setOffset (m : List (String × Vec)) (k : String) (v : Vec) :
    lookupOffset (setOffset m k v) k = some v := by
  induction m with
  | nil => simp [setOffset, lookupOffset]
  | cons p rest ih =>
    rcases p with ⟨k', v'⟩
    by_cases hk : k' = k
    · simp [setOffset, lookupOffset, hk]
    · simp [setOffset, lookupOffset, hk, ih]

/-- C8 counterexample: the claim omits the handler's middle branch.
With no stored offset for the target anchor but a cached active offset
⟨5, 7⟩, the code applies ⟨5, 7 − 32⟩ = ⟨5, −25⟩, not the claimed
clamped default ⟨min (50 + 20) 240, −32⟩ = ⟨70, −32⟩. -/
theorem claim8_counterexample :
    ¬ (∀ (s : AnchorState) (k : String) (rect : DomRect),
        chipOffset s k rect = chipOffsetClaimed s k rect) := by
  intro h
  have hx := h ⟨⟨0, 0⟩, some ⟨5, 7⟩, [], none, false, false⟩ "a" ⟨0, 0, 50, 40⟩
  simp only [chipOffset, chipOffsetRaw, chipOffsetClaimed, lookupOffset,
    ANCHOR_ALIGNMENT_NUDGE_PX, Vec.mk.injEq] at hx
  norm_num at hx

/-- C8 (amended): on an explicit anchor switch whose target descriptor
resolves — a stored offset for the target anchor is applied unchanged;
with no stored offset but a cached active offset, that current offset
shifted up by the one-time 32 px nudge is applied; with neither, the
default offset clamped to a maximum horizontal distance of 240 px and
shifted by the nudge is applied; in every case the window is
repositioned to the target rectangle plus the applied offset, which
becomes the cached and stored offset for the target anchor. -/
theorem claim8_anchor_switch :
    (∀ (s : AnchorState) (k : String) (rect : DomRect) (stored : Vec),
        lookupOffset s.offsets k = some stored →
        chipOffset s k rect = stored) ∧
    (∀ (s : AnchorState) (k : String) (rect : DomRect) (cur : Vec),
        lookupOffset s.offsets k = none → s.anchorOffset = some cur →
        chipOffset s k rect = ⟨cur.x, cur.y - ANCHOR_ALIGNMENT_NUDGE_PX⟩) ∧
    (∀ (s : AnchorState) (k : String) (rect : DomRect),
        lookupOffset s.offsets k = none → s.anchorOffset = none →
        chipOffset s k rect =
          ⟨min (rect.width + 20) 240, 0 - ANCHOR_ALIGNMENT_NUDGE_PX⟩) ∧
    (∀ (s : AnchorState) (k : String) (rect : DomRect),
        (chipSwitch s k rect).position =
          ⟨rect.left + (chipOffset s k rect).x,
           rect.top + (chipOffset s k rect).y⟩ ∧
        (chipSwitch s k rect).anchorOffset = some (chipOffset s k rect) ∧
        lookupOffset (chipSwitch s k rect).offsets k =
          some (chipOffset s k rect)) := by
  refine ⟨?_, ?_, ?_, ?_⟩
  · intro s k rect stored h
    simp [chipOffset, chipOffsetRaw, h]
  · intro s k rect cur h1 h2
    simp [chipOffset, chipOffsetRaw, h1, h2]
  · intro s k rect h1 h2
    simp [chipOffset, chipOffsetRaw, h1, h2]
  · intro s k rect
    refine ⟨rfl, rfl, ?_⟩
    simp [chipSwitch, lookup_setOffset]

/-- Witness for C8 at a fresh anchor with no cached offsets on a 50 px
wide rectangle: the applied offset is the nudged clamped default. -/
theorem claim8_witness :
    lookupOffset ([] : List (String × Vec)) "a" = none ∧
    chipOffset ⟨⟨0, 0⟩, none, [], none, false, false⟩ "a" ⟨10, 20, 50, 60⟩ =
      ⟨min ((50 : ℚ) + 20) 240, 0 - ANCHOR_ALIGNMENT_NUDGE_PX⟩ :=
  ⟨rfl, claim8_anchor_switch.2.2.1
    ⟨⟨0, 0⟩, none, [], none, false, false⟩ "a" ⟨10, 20, 50, 60⟩ rfl rfl⟩

end Anchoring

namespace Collapse

/-- The three collapse states of the window chrome. -/
inductive CollapseState
  | expanded
  | rectangle
  | square
deriving DecidableEq, Repr

/-- `handleCollapseToRectangle`: toggle between rectangle and
expanded. -/
def handleCollapseToRectangle (prev : CollapseState) : CollapseState :=
  if prev = CollapseState.rectangle then CollapseState.expanded
  else CollapseState.rectangle

/-- `handleCollapseToSquare`: toggle between square and expanded. -/
def handleCollapseToSquare (prev : CollapseState) : CollapseState :=
  if prev = CollapseState.square then CollapseState.expanded
  else CollapseState.square

/-- The header expand button: `setCollapseState('expanded')`. -/
def handleExpand : CollapseState → CollapseState :=
  fun _ => CollapseState.expanded

/-- A width/height pair in pixels. -/
structure Size where
  width : ℚ
  height : ℚ
deriving DecidableEq, Repr

/-- The window's UI state: collapse state plus the stored
`windowSize`. -/
structure WinState where
  collapse : CollapseState
  windowSize : Size
deriving DecidableEq, Repr

/-- `squareSize` from ElementChatWindow.tsx. -/
def squareSize : ℚ := 100

/-- `headerOnlyHeight` from ElementChatWindow.tsx. -/
def headerOnlyHeight : ℚ := 44

/-- The `Rnd` size prop: width is `squareSize` when square-collapsed,
else the stored width; height is the stored height when expanded, else
`headerOnlyHeight` when rectangle-collapsed, else `squareSize`. -/
def displayedSize (s : WinState) : Size :=
  ⟨if s.collapse = CollapseState.square then squareSize
    else s.windowSize.width,
   if s.collapse = CollapseState.expanded then s.windowSize.height
    else if s.collapse = CollapseState.rectangle then headerOnlyHeight
    else squareSize⟩

/-- The rectangle action on the window state: only the collapse state
changes (the handler never touches `setWindowSize`). -/
def doRectangle (s : WinState) : WinState :=
  { s with collapse := handleCollapseToRectangle s.collapse }

/-- The square action on the window state. -/
def doSquare (s : WinState) : WinState :=
  { s with collapse := handleCollapseToSquare s.collapse }

/-- The explicit expand action on the window state. -/
def doExpand (s : WinState) : WinState :=
  { s with collapse := handleExpand s.collapse }

/-- C9: the collapse actions are toggles — the rectangle action lands
on rectangle from expanded or square and back on expanded from
rectangle, symmetrically for the square action, and the explicit
expand action always lands on expanded; no action discards the stored
width/height; and from the expanded state the cycles
expanded→rectangle→expanded and expanded→square→expanded each restore
the displayed width/height exactly. -/
theorem claim9_collapse_toggles :
    (∀ s : WinState, s.collapse ≠ CollapseState.rectangle →
        (doRectangle s).collapse = CollapseState.rectangle) ∧
    (∀ s : WinState, s.collapse = CollapseState.rectangle →
        (doRectangle s).collapse = CollapseState.expanded) ∧
    (∀ s : WinState, s.collapse ≠ CollapseState.square →
        (doSquare s).collapse = CollapseState.square) ∧
    (∀ s : WinState, s.collapse = CollapseState.square →
        (doSquare s).collapse = CollapseState.expanded) ∧
    (∀ s : WinState, (doExpand s).collapse = CollapseState.expanded) ∧
    (∀ s : WinState,
        (doRectangle s).windowSize = s.windowSize ∧
        (doSquare s).windowSize = s.windowSize ∧
        (doExpand s).windowSize = s.windowSize) ∧
    (∀ s : WinState, s.collapse = CollapseState.expanded →
        displayedSize (doRectangle (doRectangle s)) = s.windowSize ∧
        displayedSize (doSquare (doSquare s)) = s.windowSize ∧
        displayedSize s = s.windowSize) := by
  refine ⟨?_, ?_, ?_, ?_, ?_, ?_, ?_⟩
  · intro s h
    simp [doRectangle, handleCollapseToRectangle, h]
  · intro s h
    simp [doRectangle, handleCollapseToRectangle, h]
  · intro s h
    simp [doSquare, handleCollapseToSquare, h]
  · intro s h
    simp [doSquare, handleCollapseToSquare, h]
  · intro s
    rfl
  · intro s
    exact ⟨rfl, rfl, rfl⟩
  · intro s h
    rcases s with ⟨c, ⟨w, ht⟩⟩
    subst h
    refine ⟨?_, ?_, ?_⟩ <;>
      simp [displayedSize, doRectangle, doSquare,
        handleCollapseToRectangle, handleCollapseToSquare]

/-- Witness for C9: from an expanded 320 × 480 window the
rectangle-collapse round trip restores the displayed size exactly. -/
theorem claim9_witness :
    (⟨CollapseState.expanded, ⟨320, 480⟩⟩ : WinState).collapse =
        CollapseState.expanded ∧
    displayedSize
        (doRectangle (doRectangle ⟨CollapseState.expanded, ⟨320, 480⟩⟩)) =
      ⟨320, 480⟩ :=
  ⟨rfl, (claim9_collapse_toggles.2.2.2.2.2.2
    ⟨CollapseState.expanded, ⟨320, 480⟩⟩ rfl).1⟩

end Collapse
